import Mathlib

/-!
Verification of the save-manager's core operations (`src/main.py`) against its
specification: the selective copy engine `CopyWorker.run`, the checkbox-tree
collection `get_checked_paths`, the slot listing `refresh_saves`, the metadata
accessors `get_save_mode` / `save_metadata`, and the slot-creation guard shared
by `backup_save` and `create_new_save`.
-/

namespace SaveManager

/-- Filesystem paths, as lists of components. -/
abbrev Path := List String

/-- `pathPre p q` is true when `p` is a component-wise ancestor of `q`
    (including `p = q`). -/
def pathPre : Path → Path → Bool
  | [], _ => true
  | _ :: _, [] => false
  | a :: as, b :: bs => if a = b then pathPre as bs else false

/-- First-match association-list lookup (Python `dict.get` on parsed JSON,
    and the failure oracle lookup). -/
def alookup {α β : Type} [DecidableEq α] (k : α) : List (α × β) → Option β
  | [] => none
  | (q, c) :: rest => if q = k then some c else alookup k rest

/-- A filesystem: file contents keyed by path (first binding wins) plus the
    explicitly created directory markers (`mkdir`, `copytree`). -/
structure FS where
  files : List (Path × String)
  dirs : List Path
deriving DecidableEq, Repr

/-- The content of the file at `p`, if one exists. -/
def FS.readFile (fs : FS) (p : Path) : Option String := alookup p fs.files

/-- `Path.is_file()`. -/
def FS.isFile (fs : FS) (p : Path) : Bool := (fs.readFile p).isSome

/-- `Path.is_dir()`: a directory marker at or below `p`, or some file strictly
    below `p`. -/
def FS.isDir (fs : FS) (p : Path) : Bool :=
  fs.dirs.any (fun d => pathPre p d) ||
  fs.files.any (fun qc => if qc.1 = p then false else pathPre p qc.1)

/-- `Path.exists()`. -/
def FS.pathExists (fs : FS) (p : Path) : Bool := fs.isFile p || fs.isDir p

/-- Python `str.rstrip('/')` (main.py line 42/43). -/
def rstripSlash (s : String) : String :=
  ⟨(s.data.reverse.dropWhile (fun c => c = '/')).reverse⟩

/-- Split a character list on `/`, accumulating the current component in
    reverse. -/
def splitSlashAux : List Char → List Char → List String
  | [], acc => [⟨acc.reverse⟩]
  | c :: cs, acc =>
    if c = '/' then ⟨acc.reverse⟩ :: splitSlashAux cs []
    else splitSlashAux cs (c :: acc)

/-- Resolve a relative path string against a base, as `base / rel.rstrip('/')`
    does: strip trailing slashes, split on `/`, drop empty segments. -/
def splitPath (s : String) : Path :=
  (splitSlashAux (rstripSlash s).data []).filter (fun t => t ≠ "")

/-- The file entries strictly below `src`, re-rooted below `dst`. -/
def mapUnder (src dst : Path) : List (Path × String) → List (Path × String)
  | [] => []
  | (q, c) :: rest =>
    if pathPre src q ∧ q ≠ src
    then (dst ++ q.drop src.length, c) :: mapUnder src dst rest
    else mapUnder src dst rest

/-- The directory markers strictly below `src`, re-rooted below `dst`. -/
def mapDirs (src dst : Path) : List Path → List Path
  | [] => []
  | d :: rest =>
    if pathPre src d ∧ d ≠ src
    then (dst ++ d.drop src.length) :: mapDirs src dst rest
    else mapDirs src dst rest

/-- `shutil.copytree(src, dst, dirs_exist_ok=True)` (main.py line 49): merge
    every file and directory marker below `src` to the corresponding path below
    `dst`, keeping all previous destination entries that are not overwritten. -/
def copytree (fs : FS) (src dst : Path) : FS :=
  { files := mapUnder src dst fs.files ++ fs.files,
    dirs := dst :: mapDirs src dst fs.dirs ++ fs.dirs }

/-- One loop body of `CopyWorker.run` (main.py lines 48-52): `copytree` when
    the source is a directory, otherwise `dst.parent.mkdir(parents=True)`
    followed by `shutil.copy2(src, dst)`. -/
def copyPath (fs : FS) (src dst : Path) : FS :=
  match fs.isDir src, fs.readFile src with
  | true, _ => copytree fs src dst
  | false, some c => { files := (dst, c) :: fs.files, dirs := dst.dropLast :: fs.dirs }
  | false, none => fs

/-- Terminal outcome of `CopyWorker.run`: `finished(True)`, or
    `error(f"Copy error for {rel_path}: ...")` followed by `finished(False)`. -/
inductive Outcome where
  | success : Outcome
  | failure (relPath cause : String) : Outcome
deriving DecidableEq, Repr

/-- The loop of `CopyWorker.run` (main.py lines 40-58) from index `i` with the
    fixed `total = len(self.paths)`.  `fails` maps a relative path to the cause
    of the I/O error its copy raises, if any; a failing copy is modelled as
    leaving the filesystem unchanged (no claim concerns the partial state of
    the failing path itself).  A missing source is skipped with no progress
    report.  The Python progress value `int((i + 1) / total * 100)` is modelled
    as Nat division `(i + 1) * 100 / total`. -/
def runFrom (srcBase dstBase : Path) (fails : List (String × String)) (total : Nat) :
    List String → Nat → FS → FS × List Nat × Outcome
  | [], _, fs => (fs, [], .success)
  | rel :: rest, i, fs =>
    match fs.pathExists (srcBase ++ splitPath rel), alookup rel fails with
    | false, _ => runFrom srcBase dstBase fails total rest (i + 1) fs
    | true, some cause => (fs, [], .failure rel cause)
    | true, none =>
      let fs1 := copyPath fs (srcBase ++ splitPath rel) (dstBase ++ splitPath rel)
      let r := runFrom srcBase dstBase fails total rest (i + 1) fs1
      (r.1, (i + 1) * 100 / total :: r.2.1, r.2.2)

/-- `CopyWorker.run` (main.py lines 38-61): `sync(sourceRoot, destRoot,
    relativePaths)` under failure oracle `fails`, starting from filesystem
    `fs`.  Returns the final filesystem, the emitted progress values in order,
    and the terminal outcome. -/
def sync (srcBase dstBase : Path) (paths : List String)
    (fails : List (String × String)) (fs : FS) : FS × List Nat × Outcome :=
  runFrom srcBase dstBase fails paths.length paths 0 fs

/-- The state of a slot's `metadata.json` as `get_save_mode` can encounter it:
    absent, unreadable or unparsable, valid JSON that is not an object (so
    `data.get` raises, swallowed by the bare `except`), or a JSON object. -/
inductive MetaFile where
  | absent
  | unreadable (cause : String)
  | notObject
  | object (fields : List (String × String))
deriving DecidableEq, Repr

/-- `MainWindow.get_save_mode` (main.py lines 521-530). -/
def get_save_mode : MetaFile → String
  | .absent => "Unknown"
  | .unreadable _ => "Unknown"
  | .notObject => "Unknown"
  | .object fields => (alookup "mode" fields).getD "Unknown"

/-- `MainWindow.save_metadata` (main.py lines 546-553): write `{"mode": mode}`;
    a write failure (`ok = false`) is logged and modelled as leaving the old
    file as it was. -/
def save_metadata (prev : MetaFile) (mode : String) (ok : Bool) : MetaFile :=
  if ok then .object [("mode", mode)] else prev

/-- Result of the slot-creation guard. -/
inductive CreateResult where
  | alreadyExists
  | created
deriving DecidableEq, Repr

/-- The slot-creation step shared by `backup_save` and `create_new_save`
    (main.py lines 402-413 and 444-456): reject when `saved_dir / name`
    already exists, before any I/O; otherwise `mkdir` the empty slot
    directory. -/
def create_slot (fs : FS) (savedDir : Path) (name : String) : FS × CreateResult :=
  if fs.pathExists (savedDir ++ [name]) then (fs, .alreadyExists)
  else ({ fs with dirs := (savedDir ++ [name]) :: fs.dirs }, .created)

mutual
/-- A `QTreeWidgetItem` as `get_checked_paths` sees it: check state, the
    `Qt.UserRole` data (the relative path; `none` on the invisible root), and
    the child items in order. -/
inductive TreeItem where
  | node (checked : Bool) (rel : Option String) (children : TreeList)

/-- The ordered children of a tree item. -/
inductive TreeList where
  | nil
  | cons (t : TreeItem) (ts : TreeList)
end

mutual
/-- `MainWindow.get_checked_paths` (main.py lines 218-228): depth-first
    collection of the `Qt.UserRole` path of every checked item; the Python
    truthiness test `if rel:` also drops a `None` or empty-string path. -/
def get_checked_paths : TreeItem → List String
  | .node checked rel children =>
    (if checked then
      match rel with
      | some r => if r = "" then [] else [r]
      | none => []
     else []) ++ get_checked_paths_list children

/-- The recursion of `get_checked_paths` over a child list. -/
def get_checked_paths_list : TreeList → List String
  | .nil => []
  | .cons t ts => get_checked_paths t ++ get_checked_paths_list ts
end

mutual
/-- The depth-first (preorder) node list of a tree, following the spec's
    wording that `getCheckedPaths` "visits the tree depth-first". -/
def preorder : TreeItem → List TreeItem
  | .node c r children => .node c r children :: preorderList children

/-- Preorder traversal of a child list. -/
def preorderList : TreeList → List TreeItem
  | .nil => []
  | .cons t ts => preorder t ++ preorderList ts
end

/-- The check state of a tree item. -/
def TreeItem.checked : TreeItem → Bool
  | .node c _ _ => c

/-- The `Qt.UserRole` relative path of a tree item. -/
def TreeItem.rel : TreeItem → Option String
  | .node _ r _ => r

/-- Following the spec's wording: the contribution of a single node to the
    configuration, determined by its own check state alone. -/
def checkedContribution (t : TreeItem) : Option String :=
  if t.checked then
    match t.rel with
    | some r => if r = "" then none else some r
    | none => none
  else none

/-- One entry of `saved_dir.iterdir()` together with the outcomes of the
    filesystem calls `refresh_saves` makes on it: `stat().st_mtime`, the
    `rglob` file-size sum, and the state of its `metadata.json`. -/
structure DirEntry where
  name : String
  isDir : Bool
  statMtime : Except String Nat
  sizeSum : Except String Nat
  meta : MetaFile

/-- One row of the saves table built by `refresh_saves`. -/
structure SlotRow where
  name : String
  mtime : Nat
  sizeBytes : Nat
  mode : String
deriving DecidableEq, Repr

/-- Whether an `Except` result is a success. -/
def exOk {α : Type} : Except String α → Bool
  | .ok _ => true
  | .error _ => false

/-- The stat mtime of an entry whose stat succeeded (0 on failure; only used
    under the assumption that the stat succeeded). -/
def mtimeD (e : DirEntry) : Nat :=
  match e.statMtime with
  | .ok m => m
  | .error _ => 0

/-- Stable insertion (descending by key) used to model Python's stable
    `sorted(..., reverse=True)`. -/
def insertDesc (x : DirEntry × Nat) : List (DirEntry × Nat) → List (DirEntry × Nat)
  | [] => [x]
  | y :: ys => if y.2 ≤ x.2 then x :: y :: ys else y :: insertDesc x ys

/-- Stable sort, descending by key. -/
def sortDesc : List (DirEntry × Nat) → List (DirEntry × Nat)
  | [] => []
  | x :: xs => insertDesc x (sortDesc xs)

/-- The evaluation of the sort key `p.stat().st_mtime` on every entry, which
    `sorted(...)` performs up front: the first stat failure aborts the whole
    listing. -/
def statAll : List DirEntry → Except String (List (DirEntry × Nat))
  | [] => .ok []
  | e :: es =>
    match e.statMtime with
    | .error c => .error c
    | .ok m =>
      match statAll es with
      | .error c => .error c
      | .ok rest => .ok ((e, m) :: rest)

/-- The per-entry body of the `refresh_saves` loop: non-directories are
    ignored; inside the `try`, a failure of the size computation is caught and
    skips just this row; `get_save_mode` never raises. -/
def rowOf (em : DirEntry × Nat) : Option SlotRow :=
  if em.1.isDir then
    match em.1.sizeSum with
    | .ok sz => some ⟨em.1.name, em.2, sz, get_save_mode em.1.meta⟩
    | .error _ => none
  else none

/-- `MainWindow.refresh_saves` (main.py lines 496-519). -/
def refresh_saves (entries : List DirEntry) : Except String (List SlotRow) :=
  match statAll entries with
  | .error c => .error c
  | .ok keyed => .ok ((sortDesc keyed).filterMap rowOf)

/-! Concrete fixtures used by witnesses and counterexamples. -/

/-- A source root. -/
def src0 : Path := ["game", "Saved"]

/-- A destination root, disjoint from `src0`. -/
def dst0 : Path := ["app", "saved", "slot1"]

/-- The scenario of spec section 8: source holds `db/a.txt` (5 bytes) and
    `log.txt` (3 bytes); destination empty. -/
def fs8 : FS :=
  { files := [(["game", "Saved", "db", "a.txt"], "abcde"),
              (["game", "Saved", "log.txt"], "abc")],
    dirs := [["game", "Saved", "db"]] }

/-- A state where the source directory `db` holds `a.txt`, and the destination
    already holds an older `db/a.txt` plus an extraneous `db/extra.txt`. -/
def fsMerge : FS :=
  { files := [(["game", "Saved", "db", "a.txt"], "new"),
              (["app", "saved", "slot1", "db", "a.txt"], "old"),
              (["app", "saved", "slot1", "db", "extra.txt"], "keep")],
    dirs := [["game", "Saved", "db"], ["app", "saved", "slot1", "db"]] }

/-- A tree whose parent directory node is unchecked while its child is
    checked. -/
def treeChildOnly : TreeItem :=
  .node false none (.cons (.node false (some "p/")
    (.cons (.node true (some "p/c") .nil) .nil)) .nil)

/-- A tree whose parent directory node is checked while its child is not. -/
def treeParentOnly : TreeItem :=
  .node false none (.cons (.node true (some "p/")
    (.cons (.node false (some "p/c") .nil) .nil)) .nil)

/-- A slot directory whose `metadata.json` cannot be read. -/
def entryBadMeta : DirEntry :=
  ⟨"slotA", true, .ok 10, .ok 0, .unreadable "Permission denied"⟩

/-- A healthy slot directory. -/
def entryGood : DirEntry :=
  ⟨"slotB", true, .ok 7, .ok 2048, .object [("mode", "Solo Play")]⟩

/-- A slot directory that cannot even be stat'ed. -/
def entryBadStat : DirEntry :=
  ⟨"slotC", true, .error "stat: Permission denied", .ok 0, .absent⟩

/-- A slot directory whose size computation fails. -/
def entryBadSize : DirEntry :=
  ⟨"slotD", true, .ok 3, .error "rglob: Permission denied", .absent⟩

/-- A stray non-directory entry in the slots root. -/
def entryFile : DirEntry :=
  ⟨"notes.txt", false, .ok 99, .ok 5, .absent⟩

/-! Path-prefix algebra. -/

theorem pathPre_iff {p q : Path} : pathPre p q = true ↔ ∃ t, q = p ++ t := by
  induction p generalizing q with
  | nil => simp [pathPre]
  | cons a as ih =>
    cases q with
    | nil =>
      simp only [pathPre, Bool.false_eq_true, false_iff, not_exists]
      intro t ht
      exact absurd ht (by simp)
    | cons b bs =>
      simp only [pathPre, List.cons_append, List.cons.injEq]
      by_cases hab : a = b
      · subst hab
        simp [ih]
      · simp only [if_neg hab, Bool.false_eq_true, false_iff, not_exists]
        intro t ht
        exact hab ht.1.symm

theorem pathPre_refl (p : Path) : pathPre p p = true :=
  pathPre_iff.mpr ⟨[], by simp⟩

theorem pathPre_app (p t : Path) : pathPre p (p ++ t) = true :=
  pathPre_iff.mpr ⟨t, rfl⟩

theorem pathPre_trans {p q r : Path} (h1 : pathPre p q = true)
    (h2 : pathPre q r = true) : pathPre p r = true := by
  obtain ⟨t1, rfl⟩ := pathPre_iff.mp h1
  obtain ⟨t2, rfl⟩ := pathPre_iff.mp h2
  exact pathPre_iff.mpr ⟨t1 ++ t2, by simp⟩

theorem pathPre_length {p q : Path} (h : pathPre p q = true) :
    p.length ≤ q.length := by
  obtain ⟨t, rfl⟩ := pathPre_iff.mp h
  simp

theorem pathPre_antisymm {p q : Path} (h1 : pathPre p q = true)
    (h2 : pathPre q p = true) : p = q := by
  obtain ⟨t, rfl⟩ := pathPre_iff.mp h1
  have hl := pathPre_length h2
  simp only [List.length_append] at hl
  have : t = [] := List.eq_nil_of_length_eq_zero (by omega)
  simp [this]

theorem app_drop {p q : Path} (h : pathPre p q = true) :
    p ++ q.drop p.length = q := by
  obtain ⟨t, rfl⟩ := pathPre_iff.mp h
  simp

theorem pathPre_cancel (a : Path) (b c : Path) :
    pathPre (a ++ b) (a ++ c) = pathPre b c := by
  induction a with
  | nil => rfl
  | cons x xs ih => simp [pathPre, ih]

theorem app_eq_self {p s : Path} : p ++ s = p ↔ s = [] := by
  constructor
  · intro h
    have : p.length + s.length = p.length := by
      simpa using congrArg List.length h
    exact List.eq_nil_of_length_eq_zero (by omega)
  · intro h
    simp [h]

theorem pathPre_dropLast (l : Path) : pathPre l.dropLast l = true := by
  induction l with
  | nil => rfl
  | cons a as ih =>
    cases as with
    | nil => rfl
    | cons b bs => simp [pathPre, List.dropLast, ih]

theorem pathPre_total {r : Path} : ∀ {p q : Path}, pathPre p r = true →
    pathPre q r = true → pathPre p q = true ∨ pathPre q p = true := by
  induction r with
  | nil =>
    intro p q hp hq
    obtain ⟨t1, h1⟩ := pathPre_iff.mp hp
    have : p = [] := by
      cases p with
      | nil => rfl
      | cons a as => exact absurd h1.symm (by simp)
    subst this
    left
    rfl
  | cons x rs ih =>
    intro p q hp hq
    cases p with
    | nil => left; rfl
    | cons a as =>
      cases q with
      | nil => right; rfl
      | cons b bs =>
        simp only [pathPre] at hp hq ⊢
        by_cases hax : a = x
        · subst hax
          rw [if_pos rfl] at hp
          by_cases hba : b = a
          · subst hba
            rw [if_pos rfl] at hq
            simpa using ih hp hq
          · rw [if_neg hba] at hq
            exact absurd hq (by simp)
        · rw [if_neg hax] at hp
          exact absurd hp (by simp)

/-! Association-list lookup lemmas. -/

theorem alookup_app_left {α β : Type} [DecidableEq α] {k : α}
    {l₁ : List (α × β)} (l₂ : List (α × β)) {v : β}
    (h : alookup k l₁ = some v) : alookup k (l₁ ++ l₂) = some v := by
  induction l₁ with
  | nil => simp [alookup] at h
  | cons x xs ih =>
    simp only [alookup, List.cons_append] at h ⊢
    split at h
    · simp [*]
    · simp only [*, if_neg]
      exact ih h

theorem alookup_app_right {α β : Type} [DecidableEq α] {k : α}
    {l₁ : List (α × β)} (l₂ : List (α × β))
    (h : alookup k l₁ = none) : alookup k (l₁ ++ l₂) = alookup k l₂ := by
  induction l₁ with
  | nil => rfl
  | cons x xs ih =>
    simp only [alookup, List.cons_append] at h ⊢
    split at h
    · exact absurd h (by simp)
    · simp only [*, if_neg]
      exact ih h

theorem alookup_mem {α β : Type} [DecidableEq α] {k : α} {l : List (α × β)}
    {v : β} (h : alookup k l = some v) : (k, v) ∈ l := by
  induction l with
  | nil => simp [alookup] at h
  | cons x xs ih =>
    simp only [alookup] at h
    split at h
    · rename_i heq
      cases x
      simp only at heq
      subst heq
      simp only [Option.some.injEq] at h
      simp [h]
    · exact List.mem_cons_of_mem _ (ih h)

theorem alookup_isSome_of_mem {α β : Type} [DecidableEq α] {k : α}
    {l : List (α × β)} {v : β} (h : (k, v) ∈ l) :
    (alookup k l).isSome = true := by
  induction l with
  | nil => simp at h
  | cons x xs ih =>
    simp only [alookup]
    split
    · simp
    · rename_i hne
      rcases List.mem_cons.mp h with h1 | h2
      · exact absurd (congrArg Prod.fst h1.symm) hne
      · exact ih h2

theorem alookup_none {α β : Type} [DecidableEq α] {k : α} {l : List (α × β)}
    (h : ∀ x ∈ l, x.1 ≠ k) : alookup k l = none := by
  induction l with
  | nil => rfl
  | cons x xs ih =>
    simp only [alookup]
    rw [if_neg (h x (by simp))]
    exact ih fun y hy => h y (List.mem_cons_of_mem _ hy)

/-! Characterization of `copytree` and `copyPath`. -/

theorem mapUnder_mem {src dst : Path} {l : List (Path × String)}
    {x : Path × String} (h : x ∈ mapUnder src dst l) :
    ∃ q c, (q, c) ∈ l ∧ pathPre src q = true ∧ q ≠ src ∧
      x = (dst ++ q.drop src.length, c) := by
  induction l with
  | nil => simp [mapUnder] at h
  | cons qc rest ih =>
    obtain ⟨q, c⟩ := qc
    simp only [mapUnder] at h
    split at h
    · rcases List.mem_cons.mp h with h1 | h2
      · exact ⟨q, c, by simp, by tauto, by tauto, h1⟩
      · obtain ⟨q', c', hm, h3, h4, h5⟩ := ih h2
        exact ⟨q', c', List.mem_cons_of_mem _ hm, h3, h4, h5⟩
    · obtain ⟨q', c', hm, h3, h4, h5⟩ := ih h
      exact ⟨q', c', List.mem_cons_of_mem _ hm, h3, h4, h5⟩

theorem mapDirs_mem {src dst : Path} {l : List Path} {x : Path}
    (h : x ∈ mapDirs src dst l) :
    ∃ d, d ∈ l ∧ pathPre src d = true ∧ d ≠ src ∧
      x = dst ++ d.drop src.length := by
  induction l with
  | nil => simp [mapDirs] at h
  | cons d rest ih =>
    simp only [mapDirs] at h
    split at h
    · rcases List.mem_cons.mp h with h1 | h2
      · exact ⟨d, by simp, by tauto, by tauto, h1⟩
      · obtain ⟨d', hm, h3, h4, h5⟩ := ih h2
        exact ⟨d', List.mem_cons_of_mem _ hm, h3, h4, h5⟩
    · obtain ⟨d', hm, h3, h4, h5⟩ := ih h
      exact ⟨d', List.mem_cons_of_mem _ hm, h3, h4, h5⟩

theorem alookup_mapUnder (src dst p : Path) (l : List (Path × String)) :
    alookup p (mapUnder src dst l) =
      if pathPre dst p = true ∧ p ≠ dst
      then alookup (src ++ p.drop dst.length) l else none := by
  induction l with
  | nil =>
    simp only [mapUnder, alookup]
    split <;> rfl
  | cons qc rest ih =>
    obtain ⟨q, c⟩ := qc
    simp only [mapUnder]
    by_cases hsel : pathPre src q = true ∧ q ≠ src
    · rw [if_pos hsel]
      have keyiff : dst ++ q.drop src.length = p ↔
          (pathPre dst p = true ∧ p ≠ dst ∧ q = src ++ p.drop dst.length) := by
        obtain ⟨t, hq⟩ := pathPre_iff.mp hsel.1
        have ht : t ≠ [] := fun h0 => hsel.2 (by simp [hq, h0])
        have hdrop : q.drop src.length = t := by rw [hq]; simp
        constructor
        · intro hkey
          have hp : p = dst ++ t := by rw [← hkey, hdrop]
          refine ⟨by rw [hp]; exact pathPre_app dst t,
            fun h => ht (app_eq_self.mp (hp ▸ h)), ?_⟩
          rw [hp]
          have : (dst ++ t).drop dst.length = t := by simp
          rw [this, ← hq]
        · rintro ⟨hc1, hc2, hc3⟩
          have : q.drop src.length = p.drop dst.length := by rw [hc3]; simp
          rw [this]
          exact app_drop hc1
      by_cases htc : pathPre dst p = true ∧ p ≠ dst
      · rw [if_pos htc]
        by_cases hq : q = src ++ p.drop dst.length
        · have hkey : dst ++ q.drop src.length = p :=
            keyiff.mpr ⟨htc.1, htc.2, hq⟩
          simp only [alookup, if_pos hkey, if_pos hq]
        · have hkey : ¬(dst ++ q.drop src.length = p) := fun h =>
            hq (keyiff.mp h).2.2
          simp only [alookup, if_neg hkey, if_neg hq]
          rw [ih, if_pos htc]
      · rw [if_neg htc]
        have hkey : ¬(dst ++ q.drop src.length = p) := fun h =>
          htc ⟨(keyiff.mp h).1, (keyiff.mp h).2.1⟩
        simp only [alookup, if_neg hkey]
        rw [ih, if_neg htc]
    · rw [if_neg hsel]
      rw [ih]
      by_cases htc : pathPre dst p = true ∧ p ≠ dst
      · rw [if_pos htc, if_pos htc]
        have hne : q ≠ src ++ p.drop dst.length := by
          intro he
          apply hsel
          constructor
          · rw [he]; exact pathPre_app src _
          · rw [he]
            intro h0
            have hd0 : p.drop dst.length = [] := app_eq_self.mp h0
            have := app_drop htc.1
            rw [hd0] at this
            exact htc.2 (by simpa using this.symm)
        simp only [alookup, if_neg hne]
      · rw [if_neg htc, if_neg htc]

theorem copytree_readFile (fs : FS) (src dst p : Path) :
    (copytree fs src dst).readFile p =
      if pathPre dst p = true ∧ p ≠ dst then
        match fs.readFile (src ++ p.drop dst.length) with
        | some c => some c
        | none => fs.readFile p
      else fs.readFile p := by
  show alookup p (mapUnder src dst fs.files ++ fs.files) = _
  by_cases hc : pathPre dst p = true ∧ p ≠ dst
  · rw [if_pos hc]
    have hm := alookup_mapUnder src dst p fs.files
    rw [if_pos hc] at hm
    cases h2 : alookup (src ++ p.drop dst.length) fs.files with
    | some c =>
      rw [h2] at hm
      rw [alookup_app_left _ hm]
      simp only [FS.readFile, h2]
    | none =>
      rw [h2] at hm
      rw [alookup_app_right _ hm]
      simp only [FS.readFile, h2]
  · rw [if_neg hc]
    have hm := alookup_mapUnder src dst p fs.files
    rw [if_neg hc] at hm
    rw [alookup_app_right _ hm]
    rfl

theorem copyPath_frame (fs : FS) (src dst p : Path)
    (h : pathPre dst p = false) :
    (copyPath fs src dst).readFile p = fs.readFile p := by
  unfold copyPath
  cases hd : fs.isDir src with
  | true =>
    rw [copytree_readFile, if_neg]
    simp [h]
  | false =>
    cases hf : fs.readFile src with
    | some c =>
      show alookup p ((dst, c) :: fs.files) = _
      simp only [alookup]
      rw [if_neg]
      · rfl
      · intro he
        rw [he, pathPre_refl] at h
        exact absurd h (by simp)
    | none => rfl

theorem copyPath_isDir_frame (fs : FS) (src dst p : Path)
    (h1 : pathPre dst p = false) (h2 : pathPre p dst = false) :
    (copyPath fs src dst).isDir p = fs.isDir p := by
  have hnew : ∀ t : Path, pathPre p (dst ++ t) = false := by
    intro t
    cases hpt : pathPre p (dst ++ t) with
    | false => rfl
    | true =>
      rcases pathPre_total hpt (pathPre_app dst t) with hc | hc
      · rw [h2] at hc; exact absurd hc (by simp)
      · rw [h1] at hc; exact absurd hc (by simp)
  have hnil : pathPre p dst = false := h2
  unfold copyPath
  cases hd : fs.isDir src with
  | true =>
    simp only [FS.isDir, copytree, List.any_append, List.any_cons]
    have e1 : (mapDirs src dst fs.dirs).any (fun d => pathPre p d) = false := by
      rw [List.any_eq_false]
      intro x hx
      obtain ⟨d, _, _, _, hxe⟩ := mapDirs_mem hx
      rw [hxe]
      simp [hnew]
    have e2 : (mapUnder src dst fs.files).any
        (fun qc => if qc.1 = p then false else pathPre p qc.1) = false := by
      rw [List.any_eq_false]
      intro x hx
      obtain ⟨q, c, _, _, _, hxe⟩ := mapUnder_mem hx
      rw [hxe]
      simp only
      split
      · simp
      · simp [hnew]
    rw [e1, e2, hnil]
    simp
  | false =>
    cases hf : fs.readFile src with
    | some c =>
      simp only [FS.isDir, List.any_cons]
      have e3 : pathPre p dst.dropLast = false := by
        cases hq : pathPre p dst.dropLast with
        | false => rfl
        | true =>
          have := pathPre_trans hq (pathPre_dropLast dst)
          rw [hnil] at this
          exact absurd this (by simp)
      rw [e3]
      have e4 : (if dst = p then false else pathPre p dst) = false := by
        split
        · rfl
        · exact hnil
      rw [e4]
      simp
    | none => rfl

theorem copyPath_values (fs : FS) (src dst p : Path)
    (h : pathPre dst p = true) :
    (copyPath fs src dst).readFile p = fs.readFile p ∨
      ((copyPath fs src dst).readFile p = fs.readFile (src ++ p.drop dst.length) ∧
        fs.isFile (src ++ p.drop dst.length) = true) := by
  unfold copyPath
  cases hd : fs.isDir src with
  | true =>
    rw [copytree_readFile]
    by_cases hc : pathPre dst p = true ∧ p ≠ dst
    · rw [if_pos hc]
      cases hrf : fs.readFile (src ++ p.drop dst.length) with
      | some c =>
        right
        exact ⟨by simp [hrf], by simp [FS.isFile, hrf]⟩
      | none => left; simp [hrf]
    · rw [if_neg hc]
      left
      rfl
  | false =>
    cases hf : fs.readFile src with
    | some c =>
      by_cases hp : p = dst
      · subst hp
        right
        have hdp : p.drop p.length = ([] : Path) := List.drop_length p
        constructor
        · show alookup p ((p, c) :: fs.files) = _
          simp [alookup, hdp, hf]
        · rw [hdp, List.append_nil]
          simp [FS.isFile, hf]
      · left
        show alookup p ((dst, c) :: fs.files) = _
        simp only [alookup]
        rw [if_neg (fun he => hp he.symm)]
        rfl
    | none => left; rfl

theorem copyPath_overwrite (fs : FS) (src dst s : Path)
    (hdir : fs.isDir src = true) (hs : s ≠ [])
    (hf : fs.isFile (src ++ s) = true) :
    (copyPath fs src dst).readFile (dst ++ s) = fs.readFile (src ++ s) := by
  unfold copyPath
  rw [hdir]
  rw [copytree_readFile, if_pos]
  · have hds : (dst ++ s).drop dst.length = s := by simp
    rw [hds]
    obtain ⟨c, hc⟩ := Option.isSome_iff_exists.mp hf
    rw [hc]
  · exact ⟨pathPre_app dst s, fun h => hs (app_eq_self.mp h)⟩

/-! Existence transfer along ancestors, and disjoint-root shields. -/

theorem isDir_of_file_under {fs : FS} {p q : Path} (hf : fs.isFile q = true)
    (hpq : pathPre p q = true) (hne : q ≠ p) : fs.isDir p = true := by
  obtain ⟨c, hc⟩ := Option.isSome_iff_exists.mp hf
  have hm : (q, c) ∈ fs.files := alookup_mem hc
  have : fs.files.any (fun qc => if qc.1 = p then false else pathPre p qc.1) = true := by
    rw [List.any_eq_true]
    refine ⟨(q, c), hm, ?_⟩
    simp only
    rw [if_neg hne]
    exact hpq
  show (fs.dirs.any (fun d => pathPre p d) ||
    fs.files.any (fun qc => if qc.1 = p then false else pathPre p qc.1)) = true
  rw [this, Bool.or_true]

theorem pathExists_of_file_under {fs : FS} {p q : Path}
    (hf : fs.isFile q = true) (hpq : pathPre p q = true) :
    fs.pathExists p = true := by
  by_cases hqp : q = p
  · subst hqp
    simp [FS.pathExists, hf]
  · simp [FS.pathExists, isDir_of_file_under hf hpq hqp]

theorem isDir_of_under {fs : FS} {p q : Path} (hd : fs.isDir q = true)
    (hpq : pathPre p q = true) : fs.isDir p = true := by
  simp only [FS.isDir, Bool.or_eq_true, List.any_eq_true] at hd
  rcases hd with ⟨d, hm, hdq⟩ | ⟨qc, hm, hguard⟩
  · simp only [FS.isDir, Bool.or_eq_true, List.any_eq_true]
    exact Or.inl ⟨d, hm, pathPre_trans hpq hdq⟩
  · have hne : qc.1 ≠ q := by
      intro he
      rw [if_pos he] at hguard
      exact absurd hguard (by simp)
    rw [if_neg hne] at hguard
    simp only [FS.isDir, Bool.or_eq_true, List.any_eq_true]
    right
    refine ⟨qc, hm, ?_⟩
    have hne2 : qc.1 ≠ p := by
      intro he
      apply hne
      have hqp : pathPre q p = true := he ▸ hguard
      rw [he]
      exact pathPre_antisymm hpq hqp
    show (if qc.1 = p then false else pathPre p qc.1) = true
    rw [if_neg hne2]
    exact pathPre_trans hpq hguard

theorem isDir_of_marker_under {fs : FS} {p d : Path} (hm : d ∈ fs.dirs)
    (hpd : pathPre p d = true) : fs.isDir p = true := by
  simp only [FS.isDir, Bool.or_eq_true, List.any_eq_true]
  exact Or.inl ⟨d, hm, hpd⟩

theorem pathExists_of_under {fs : FS} {p q : Path}
    (he : fs.pathExists q = true) (hpq : pathPre p q = true) :
    fs.pathExists p = true := by
  simp only [FS.pathExists, Bool.or_eq_true] at he
  rcases he with hf | hd
  · exact pathExists_of_file_under hf hpq
  · simp [FS.pathExists, isDir_of_under hd hpq]

theorem disj_shield {srcBase dstBase : Path}
    (hd1 : pathPre srcBase dstBase = false)
    (hd2 : pathPre dstBase srcBase = false)
    {p : Path} (hp : pathPre srcBase p = true) (r : Path) :
    pathPre (dstBase ++ r) p = false ∧ pathPre p (dstBase ++ r) = false := by
  constructor
  · cases h : pathPre (dstBase ++ r) p with
    | false => rfl
    | true =>
      have hdp : pathPre dstBase p = true :=
        pathPre_trans (pathPre_app dstBase r) h
      rcases pathPre_total hp hdp with hc | hc
      · rw [hd1] at hc; exact absurd hc (by simp)
      · rw [hd2] at hc; exact absurd hc (by simp)
  · cases h : pathPre p (dstBase ++ r) with
    | false => rfl
    | true =>
      have hsp : pathPre srcBase (dstBase ++ r) = true := pathPre_trans hp h
      rcases pathPre_total hsp (pathPre_app dstBase r) with hc | hc
      · rw [hd1] at hc; exact absurd hc (by simp)
      · rw [hd2] at hc; exact absurd hc (by simp)

theorem copyPath_source_preserve (fs : FS) (srcBase dstBase : Path)
    (hd1 : pathPre srcBase dstBase = false)
    (hd2 : pathPre dstBase srcBase = false)
    {p : Path} (hp : pathPre srcBase p = true) (r : Path) :
    (copyPath fs (srcBase ++ r) (dstBase ++ r)).readFile p = fs.readFile p ∧
    (copyPath fs (srcBase ++ r) (dstBase ++ r)).isDir p = fs.isDir p ∧
    (copyPath fs (srcBase ++ r) (dstBase ++ r)).isFile p = fs.isFile p ∧
    (copyPath fs (srcBase ++ r) (dstBase ++ r)).pathExists p = fs.pathExists p := by
  obtain ⟨s1, s2⟩ := disj_shield hd1 hd2 hp r
  have h1 := copyPath_frame fs (srcBase ++ r) (dstBase ++ r) p s1
  have h2 := copyPath_isDir_frame fs (srcBase ++ r) (dstBase ++ r) p s1 s2
  have h3 : (copyPath fs (srcBase ++ r) (dstBase ++ r)).isFile p = fs.isFile p := by
    simp [FS.isFile, h1]
  exact ⟨h1, h2, h3, by simp [FS.pathExists, h1, h2, h3]⟩

/-- If nothing exists at the source path `srcBase ++ a`, one `copyPath` step of
    any relative path `r` leaves everything at or below `dstBase ++ a`
    untouched. -/
theorem copyPath_untouched (fs : FS) {srcBase dstBase a : Path}
    (hna : fs.pathExists (srcBase ++ a) = false) (r : Path)
    {p : Path} (hp : pathPre (dstBase ++ a) p = true) :
    (copyPath fs (srcBase ++ r) (dstBase ++ r)).readFile p = fs.readFile p ∧
    (copyPath fs (srcBase ++ r) (dstBase ++ r)).isDir p = fs.isDir p := by
  have hsub : ∀ t : Path, pathPre (dstBase ++ a) ((dstBase ++ r) ++ t) = true →
      pathPre (srcBase ++ a) ((srcBase ++ r) ++ t) = true := by
    intro t h
    rw [List.append_assoc, pathPre_cancel] at h
    rw [List.append_assoc, pathPre_cancel]
    exact h
  have hnil : pathPre (dstBase ++ a) (dstBase ++ r) = true →
      pathPre (srcBase ++ a) (srcBase ++ r) = true := by
    intro h
    have := hsub [] (by simpa using h)
    simpa using this
  unfold copyPath
  cases hd : fs.isDir (srcBase ++ r) with
  | true =>
    have hdirEx : ∀ x ∈ mapDirs (srcBase ++ r) (dstBase ++ r) fs.dirs,
        pathPre (dstBase ++ a) x = false := by
      intro x hx
      obtain ⟨d, hm, hpre, _, hxe⟩ := mapDirs_mem hx
      subst hxe
      cases hq : pathPre (dstBase ++ a) ((dstBase ++ r) ++ d.drop (srcBase ++ r).length) with
      | false => rfl
      | true =>
        exfalso
        have := hsub _ hq
        rw [app_drop hpre] at this
        rw [pathExists_of_under (by simp [FS.pathExists, isDir_of_marker_under hm (pathPre_refl d)]) this] at hna
        exact absurd hna (by simp)
    have hfileEx : ∀ x ∈ mapUnder (srcBase ++ r) (dstBase ++ r) fs.files,
        pathPre (dstBase ++ a) x.1 = false := by
      intro x hx
      obtain ⟨q, c, hm, hpre, _, hxe⟩ := mapUnder_mem hx
      subst hxe
      cases hq : pathPre (dstBase ++ a) ((dstBase ++ r) ++ q.drop (srcBase ++ r).length) with
      | false => rfl
      | true =>
        exfalso
        have := hsub _ hq
        rw [app_drop hpre] at this
        have hqf : fs.isFile q = true := alookup_isSome_of_mem hm
        rw [pathExists_of_file_under hqf this] at hna
        exact absurd hna (by simp)
    have hdd : pathPre (dstBase ++ a) (dstBase ++ r) = false := by
      cases hq : pathPre (dstBase ++ a) (dstBase ++ r) with
      | false => rfl
      | true =>
        exfalso
        rw [pathExists_of_under (by simp [FS.pathExists, hd]) (hnil hq)] at hna
        exact absurd hna (by simp)
    constructor
    · show alookup p (mapUnder _ _ fs.files ++ fs.files) = _
      rw [alookup_app_right]
      · rfl
      · apply alookup_none
        intro x hx he
        have := hfileEx x hx
        rw [he, hp] at this
        exact absurd this (by simp)
    · simp only [FS.isDir, copytree, List.any_append, List.any_cons]
      have e1 : (mapDirs (srcBase ++ r) (dstBase ++ r) fs.dirs).any
          (fun d => pathPre p d) = false := by
        rw [List.any_eq_false]
        intro x hx hc
        have := hdirEx x hx
        rw [pathPre_trans hp hc] at this
        exact absurd this (by simp)
      have e2 : (mapUnder (srcBase ++ r) (dstBase ++ r) fs.files).any
          (fun qc => if qc.1 = p then false else pathPre p qc.1) = false := by
        rw [List.any_eq_false]
        intro x hx hc
        split at hc
        · exact absurd hc (by simp)
        · have := hfileEx x hx
          rw [pathPre_trans hp hc] at this
          exact absurd this (by simp)
      have e0 : pathPre p (dstBase ++ r) = false := by
        cases hc : pathPre p (dstBase ++ r) with
        | false => rfl
        | true =>
          have := pathPre_trans hp hc
          rw [hdd] at this
          exact absurd this (by simp)
      rw [e0, e1, e2]
      simp
  | false =>
    cases hf : fs.readFile (srcBase ++ r) with
    | some c =>
      have hdd : pathPre (dstBase ++ a) (dstBase ++ r) = false := by
        cases hq : pathPre (dstBase ++ a) (dstBase ++ r) with
        | false => rfl
        | true =>
          exfalso
          have hsf : fs.isFile (srcBase ++ r) = true := by simp [FS.isFile, hf]
          rw [pathExists_of_file_under hsf (hnil hq)] at hna
          exact absurd hna (by simp)
      constructor
      · show alookup p ((dstBase ++ r, c) :: fs.files) = _
        simp only [alookup]
        rw [if_neg]
        · rfl
        · intro he
          rw [he, hp] at hdd
          exact absurd hdd (by simp)
      · simp only [FS.isDir, List.any_cons]
        have e3 : pathPre p (dstBase ++ r).dropLast = false := by
          cases hq : pathPre p (dstBase ++ r).dropLast with
          | false => rfl
          | true =>
            have h5 := pathPre_trans (pathPre_trans hp hq)
              (pathPre_dropLast (dstBase ++ r))
            rw [hdd] at h5
            exact absurd h5 (by simp)
        have e4 : (if dstBase ++ r = p then false else pathPre p (dstBase ++ r)) = false := by
          split
          · rfl
          · cases hq : pathPre p (dstBase ++ r) with
            | false => rfl
            | true =>
              have h5 := pathPre_trans hp hq
              rw [hdd] at h5
              exact absurd h5 (by simp)
        rw [e3, e4]
        simp
    | none => exact ⟨rfl, rfl⟩

/-! Unfolding equations for the copy loop. -/

theorem runFrom_cons (srcBase dstBase : Path) (fails : List (String × String))
    (total : Nat) (rel : String) (rest : List String) (i : Nat) (fs : FS) :
    runFrom srcBase dstBase fails total (rel :: rest) i fs =
      match fs.pathExists (srcBase ++ splitPath rel), alookup rel fails with
      | false, _ => runFrom srcBase dstBase fails total rest (i + 1) fs
      | true, some cause => (fs, [], .failure rel cause)
      | true, none =>
        let fs1 := copyPath fs (srcBase ++ splitPath rel) (dstBase ++ splitPath rel)
        let r := runFrom srcBase dstBase fails total rest (i + 1) fs1
        (r.1, (i + 1) * 100 / total :: r.2.1, r.2.2) := rfl

theorem runFrom_skip {fs : FS} {srcBase : Path} {rel : String}
    (h : fs.pathExists (srcBase ++ splitPath rel) = false)
    (dstBase : Path) (fails : List (String × String)) (total : Nat)
    (rest : List String) (i : Nat) :
    runFrom srcBase dstBase fails total (rel :: rest) i fs =
      runFrom srcBase dstBase fails total rest (i + 1) fs := by
  rw [runFrom_cons, h]

theorem runFrom_fail {fs : FS} {srcBase : Path} {rel : String}
    {fails : List (String × String)} {cause : String}
    (h1 : fs.pathExists (srcBase ++ splitPath rel) = true)
    (h2 : alookup rel fails = some cause)
    (dstBase : Path) (total : Nat) (rest : List String) (i : Nat) :
    runFrom srcBase dstBase fails total (rel :: rest) i fs =
      (fs, [], .failure rel cause) := by
  rw [runFrom_cons, h1, h2]

theorem runFrom_copy {fs : FS} {srcBase : Path} {rel : String}
    {fails : List (String × String)}
    (h1 : fs.pathExists (srcBase ++ splitPath rel) = true)
    (h2 : alookup rel fails = none)
    (dstBase : Path) (total : Nat) (rest : List String) (i : Nat) :
    runFrom srcBase dstBase fails total (rel :: rest) i fs =
      ((runFrom srcBase dstBase fails total rest (i + 1)
          (copyPath fs (srcBase ++ splitPath rel) (dstBase ++ splitPath rel))).1,
        (i + 1) * 100 / total ::
          (runFrom srcBase dstBase fails total rest (i + 1)
            (copyPath fs (srcBase ++ splitPath rel) (dstBase ++ splitPath rel))).2.1,
        (runFrom srcBase dstBase fails total rest (i + 1)
          (copyPath fs (srcBase ++ splitPath rel) (dstBase ++ splitPath rel))).2.2) := by
  rw [runFrom_cons, h1, h2]

/-! Induction lemmas over the copy loop. -/

theorem runFrom_indep (srcBase dstBase : Path) (fails : List (String × String))
    (t t' : Nat) : ∀ (l : List String) (i i' : Nat) (fs : FS),
    (runFrom srcBase dstBase fails t l i fs).1 =
      (runFrom srcBase dstBase fails t' l i' fs).1 ∧
    (runFrom srcBase dstBase fails t l i fs).2.2 =
      (runFrom srcBase dstBase fails t' l i' fs).2.2 := by
  intro l
  induction l with
  | nil => exact fun i i' fs => ⟨rfl, rfl⟩
  | cons rel rest ih =>
    intro i i' fs
    cases hex : fs.pathExists (srcBase ++ splitPath rel) with
    | false =>
      rw [runFrom_skip hex, runFrom_skip hex]
      exact ih _ _ _
    | true =>
      cases hlk : alookup rel fails with
      | some cause =>
        rw [runFrom_fail hex hlk, runFrom_fail hex hlk]
        exact ⟨rfl, rfl⟩
      | none =>
        rw [runFrom_copy hex hlk, runFrom_copy hex hlk]
        exact ⟨(ih _ _ _).1, (ih _ _ _).2⟩

theorem runFrom_frame (srcBase dstBase : Path) (fails : List (String × String))
    (t : Nat) : ∀ (l : List String) (i : Nat) (fs : FS) (p : Path),
    (∀ rel ∈ l, pathPre (dstBase ++ splitPath rel) p = false ∧
      pathPre p (dstBase ++ splitPath rel) = false) →
    (runFrom srcBase dstBase fails t l i fs).1.readFile p = fs.readFile p ∧
    (runFrom srcBase dstBase fails t l i fs).1.isDir p = fs.isDir p := by
  intro l
  induction l with
  | nil => exact fun i fs p _ => ⟨rfl, rfl⟩
  | cons rel rest ih =>
    intro i fs p hall
    obtain ⟨h1, h2⟩ := hall rel (by simp)
    have hrest := fun r hr => hall r (List.mem_cons_of_mem _ hr)
    cases hex : fs.pathExists (srcBase ++ splitPath rel) with
    | false =>
      rw [runFrom_skip hex]
      exact ih _ _ _ hrest
    | true =>
      cases hlk : alookup rel fails with
      | some cause =>
        rw [runFrom_fail hex hlk]
        exact ⟨rfl, rfl⟩
      | none =>
        rw [runFrom_copy hex hlk]
        have hstep1 := copyPath_frame fs (srcBase ++ splitPath rel)
          (dstBase ++ splitPath rel) p h1
        have hstep2 := copyPath_isDir_frame fs (srcBase ++ splitPath rel)
          (dstBase ++ splitPath rel) p h1 h2
        obtain ⟨ih1, ih2⟩ := ih (i + 1)
          (copyPath fs (srcBase ++ splitPath rel) (dstBase ++ splitPath rel)) p hrest
        exact ⟨ih1.trans hstep1, ih2.trans hstep2⟩

theorem runFrom_source (srcBase dstBase : Path) (fails : List (String × String))
    (t : Nat) (hd1 : pathPre srcBase dstBase = false)
    (hd2 : pathPre dstBase srcBase = false)
    (l : List String) (i : Nat) (fs : FS) (p : Path)
    (hp : pathPre srcBase p = true) :
    (runFrom srcBase dstBase fails t l i fs).1.readFile p = fs.readFile p ∧
    (runFrom srcBase dstBase fails t l i fs).1.isDir p = fs.isDir p ∧
    (runFrom srcBase dstBase fails t l i fs).1.isFile p = fs.isFile p ∧
    (runFrom srcBase dstBase fails t l i fs).1.pathExists p = fs.pathExists p := by
  obtain ⟨f1, f2⟩ := runFrom_frame srcBase dstBase fails t l i fs p
    (fun rel _ => disj_shield hd1 hd2 hp (splitPath rel))
  refine ⟨f1, f2, ?_, ?_⟩
  · simp [FS.isFile, f1]
  · simp [FS.pathExists, FS.isFile, f1, f2]

theorem runFrom_values (srcBase dstBase : Path) (fails : List (String × String))
    (t : Nat) (hd1 : pathPre srcBase dstBase = false)
    (hd2 : pathPre dstBase srcBase = false) :
    ∀ (l : List String) (i : Nat) (fs : FS) (q : Path),
    (runFrom srcBase dstBase fails t l i fs).1.readFile (dstBase ++ q) =
        fs.readFile (dstBase ++ q) ∨
      ((runFrom srcBase dstBase fails t l i fs).1.readFile (dstBase ++ q) =
          fs.readFile (srcBase ++ q) ∧
        fs.isFile (srcBase ++ q) = true) := by
  intro l
  induction l with
  | nil => exact fun i fs q => Or.inl rfl
  | cons rel rest ih =>
    intro i fs q
    cases hex : fs.pathExists (srcBase ++ splitPath rel) with
    | false =>
      rw [runFrom_skip hex]
      exact ih _ _ _
    | true =>
      cases hlk : alookup rel fails with
      | some cause =>
        rw [runFrom_fail hex hlk]
        exact Or.inl rfl
      | none =>
        rw [runFrom_copy hex hlk]
        have hstep : (copyPath fs (srcBase ++ splitPath rel)
              (dstBase ++ splitPath rel)).readFile (dstBase ++ q) =
              fs.readFile (dstBase ++ q) ∨
            ((copyPath fs (srcBase ++ splitPath rel)
                (dstBase ++ splitPath rel)).readFile (dstBase ++ q) =
                fs.readFile (srcBase ++ q) ∧
              fs.isFile (srcBase ++ q) = true) := by
          cases hpre : pathPre (dstBase ++ splitPath rel) (dstBase ++ q) with
          | false => exact Or.inl (copyPath_frame _ _ _ _ hpre)
          | true =>
            rcases copyPath_values fs _ _ _ hpre with h | ⟨h, hf⟩
            · exact Or.inl h
            · right
              have hr : pathPre (splitPath rel) q = true := by
                rw [← pathPre_cancel dstBase]
                exact hpre
              obtain ⟨tl, hq⟩ := pathPre_iff.mp hr
              have hdrop : (dstBase ++ q).drop (dstBase ++ splitPath rel).length = tl := by
                rw [hq, ← List.append_assoc]
                simp
              have harr : (srcBase ++ splitPath rel) ++ tl = srcBase ++ q := by
                rw [hq, List.append_assoc]
              rw [hdrop, harr] at h hf
              exact ⟨h, hf⟩
        rcases ih (i + 1)
            (copyPath fs (srcBase ++ splitPath rel) (dstBase ++ splitPath rel)) q with
          h2 | ⟨h2, hf2⟩
        · rcases hstep with h1 | ⟨h1, hf1⟩
          · exact Or.inl (h2.trans h1)
          · exact Or.inr ⟨h2.trans h1, hf1⟩
        · right
          obtain ⟨s1, _, s3, _⟩ := copyPath_source_preserve fs srcBase dstBase hd1 hd2
            (pathPre_app srcBase q) (splitPath rel)
          exact ⟨h2.trans s1, s3.symm.trans hf2⟩

theorem runFrom_coverage (srcBase dstBase : Path) (fails : List (String × String))
    (t : Nat) (hd1 : pathPre srcBase dstBase = false)
    (hd2 : pathPre dstBase srcBase = false) :
    ∀ (l : List String) (i : Nat) (fs : FS) (rel : String) (s : Path),
    (runFrom srcBase dstBase fails t l i fs).2.2 = .success →
    rel ∈ l →
    fs.isDir (srcBase ++ splitPath rel) = true →
    s ≠ [] →
    fs.isFile (srcBase ++ (splitPath rel ++ s)) = true →
    (runFrom srcBase dstBase fails t l i fs).1.readFile
        (dstBase ++ (splitPath rel ++ s)) =
      fs.readFile (srcBase ++ (splitPath rel ++ s)) := by
  intro l
  induction l with
  | nil =>
    intro i fs rel s _ hmem
    exact absurd hmem (by simp)
  | cons r0 rest ih =>
    intro i fs rel s hsucc hmem hdir hs hfile
    cases hex : fs.pathExists (srcBase ++ splitPath r0) with
    | false =>
      rw [runFrom_skip hex] at hsucc ⊢
      rcases List.mem_cons.mp hmem with he | hm
      · exfalso
        have hx : fs.pathExists (srcBase ++ splitPath rel) = true := by
          simp [FS.pathExists, hdir]
        rw [he] at hx
        rw [hx] at hex
        exact absurd hex (by simp)
      · exact ih _ _ _ _ hsucc hm hdir hs hfile
    | true =>
      cases hlk : alookup r0 fails with
      | some cause =>
        rw [runFrom_fail hex hlk] at hsucc
        exact absurd hsucc (by simp)
      | none =>
        rw [runFrom_copy hex hlk] at hsucc ⊢
        have hsp := fun (pp : Path) (hpp : pathPre srcBase pp = true) =>
          copyPath_source_preserve fs srcBase dstBase hd1 hd2 hpp (splitPath r0)
        rcases List.mem_cons.mp hmem with he | hm
        · subst he
          have hstep : (copyPath fs (srcBase ++ splitPath rel)
                (dstBase ++ splitPath rel)).readFile
                  (dstBase ++ (splitPath rel ++ s)) =
              fs.readFile (srcBase ++ (splitPath rel ++ s)) := by
            have hfa : fs.isFile ((srcBase ++ splitPath rel) ++ s) = true := by
              rw [List.append_assoc]
              exact hfile
            have h0 := copyPath_overwrite fs (srcBase ++ splitPath rel)
              (dstBase ++ splitPath rel) s hdir hs hfa
            rw [List.append_assoc, List.append_assoc] at h0
            exact h0
          rcases runFrom_values srcBase dstBase fails t hd1 hd2 rest (i + 1)
              (copyPath fs (srcBase ++ splitPath rel) (dstBase ++ splitPath rel))
              (splitPath rel ++ s) with h2 | ⟨h2, _⟩
          · exact h2.trans hstep
          · exact h2.trans (hsp _ (pathPre_app srcBase _)).1
        · have hdir1 : (copyPath fs (srcBase ++ splitPath r0)
              (dstBase ++ splitPath r0)).isDir (srcBase ++ splitPath rel) = true := by
            rw [(hsp _ (pathPre_app srcBase _)).2.1]
            exact hdir
          have hfile1 : (copyPath fs (srcBase ++ splitPath r0)
              (dstBase ++ splitPath r0)).isFile
                (srcBase ++ (splitPath rel ++ s)) = true := by
            rw [(hsp _ (pathPre_app srcBase _)).2.2.1]
            exact hfile
          have hrec := ih (i + 1)
            (copyPath fs (srcBase ++ splitPath r0) (dstBase ++ splitPath r0))
            rel s hsucc hm hdir1 hs hfile1
          rw [hrec, (hsp _ (pathPre_app srcBase _)).1]

theorem runFrom_untouched (srcBase dstBase : Path) (fails : List (String × String))
    (t : Nat) (hd1 : pathPre srcBase dstBase = false)
    (hd2 : pathPre dstBase srcBase = false) :
    ∀ (l : List String) (i : Nat) (fs : FS) (a : Path),
    fs.pathExists (srcBase ++ a) = false →
    ∀ p, pathPre (dstBase ++ a) p = true →
    (runFrom srcBase dstBase fails t l i fs).1.readFile p = fs.readFile p ∧
    (runFrom srcBase dstBase fails t l i fs).1.isDir p = fs.isDir p := by
  intro l
  induction l with
  | nil => exact fun i fs a _ p _ => ⟨rfl, rfl⟩
  | cons r0 rest ih =>
    intro i fs a hna p hp
    cases hex : fs.pathExists (srcBase ++ splitPath r0) with
    | false =>
      rw [runFrom_skip hex]
      exact ih _ _ _ hna p hp
    | true =>
      cases hlk : alookup r0 fails with
      | some cause =>
        rw [runFrom_fail hex hlk]
        exact ⟨rfl, rfl⟩
      | none =>
        rw [runFrom_copy hex hlk]
        obtain ⟨u1, u2⟩ := copyPath_untouched fs hna (splitPath r0) hp
        have hna1 : (copyPath fs (srcBase ++ splitPath r0)
            (dstBase ++ splitPath r0)).pathExists (srcBase ++ a) = false := by
          rw [(copyPath_source_preserve fs srcBase dstBase hd1 hd2
            (pathPre_app srcBase a) (splitPath r0)).2.2.2]
          exact hna
        obtain ⟨v1, v2⟩ := ih (i + 1)
          (copyPath fs (srcBase ++ splitPath r0) (dstBase ++ splitPath r0))
          a hna1 p hp
        exact ⟨v1.trans u1, v2.trans u2⟩

theorem runFrom_success (srcBase dstBase : Path) (fails : List (String × String))
    (t : Nat) : ∀ (l : List String) (i : Nat) (fs : FS),
    (∀ r ∈ l, alookup r fails = none) →
    (runFrom srcBase dstBase fails t l i fs).2.2 = .success := by
  intro l
  induction l with
  | nil => exact fun i fs _ => rfl
  | cons r0 rest ih =>
    intro i fs hall
    cases hex : fs.pathExists (srcBase ++ splitPath r0) with
    | false =>
      rw [runFrom_skip hex]
      exact ih _ _ fun r hr => hall r (List.mem_cons_of_mem _ hr)
    | true =>
      cases hlk : alookup r0 fails with
      | some cause =>
        rw [hall r0 (by simp)] at hlk
        exact absurd hlk (by simp)
      | none =>
        rw [runFrom_copy hex hlk]
        exact ih _ _ fun r hr => hall r (List.mem_cons_of_mem _ hr)

theorem runFrom_no_fail_missing (srcBase dstBase : Path)
    (fails : List (String × String)) (t : Nat)
    (hd1 : pathPre srcBase dstBase = false)
    (hd2 : pathPre dstBase srcBase = false) :
    ∀ (l : List String) (i : Nat) (fs : FS) (rel : String),
    fs.pathExists (srcBase ++ splitPath rel) = false →
    ∀ c, (runFrom srcBase dstBase fails t l i fs).2.2 ≠ .failure rel c := by
  intro l
  induction l with
  | nil =>
    intro i fs rel _ c h
    exact absurd h (by simp [runFrom])
  | cons r0 rest ih =>
    intro i fs rel hmiss c h
    cases hex : fs.pathExists (srcBase ++ splitPath r0) with
    | false =>
      rw [runFrom_skip hex] at h
      exact ih _ _ _ hmiss c h
    | true =>
      cases hlk : alookup r0 fails with
      | some cause =>
        rw [runFrom_fail hex hlk] at h
        have h' : Outcome.failure r0 cause = Outcome.failure rel c := h
        have hr0 : r0 = rel := by
          injection h'
        rw [hr0] at hex
        rw [hmiss] at hex
        exact absurd hex (by simp)
      | none =>
        rw [runFrom_copy hex hlk] at h
        have hmiss1 : (copyPath fs (srcBase ++ splitPath r0)
            (dstBase ++ splitPath r0)).pathExists (srcBase ++ splitPath rel) = false := by
          rw [(copyPath_source_preserve fs srcBase dstBase hd1 hd2
            (pathPre_app srcBase (splitPath rel)) (splitPath r0)).2.2.2]
          exact hmiss
        exact ih _ _ _ hmiss1 c h

theorem runFrom_failure_split (srcBase dstBase : Path)
    (fails : List (String × String)) (t : Nat) :
    ∀ (l : List String) (i : Nat) (fs : FS) (r c : String),
    (runFrom srcBase dstBase fails t l i fs).2.2 = .failure r c →
    alookup r fails = some c ∧
    ∃ pre post, l = pre ++ r :: post ∧
      (runFrom srcBase dstBase fails t pre i fs).2.2 = .success ∧
      (runFrom srcBase dstBase fails t l i fs).1 =
        (runFrom srcBase dstBase fails t pre i fs).1 ∧
      (runFrom srcBase dstBase fails t pre i fs).1.pathExists
        (srcBase ++ splitPath r) = true := by
  intro l
  induction l with
  | nil =>
    intro i fs r c h
    exact absurd h (by simp [runFrom])
  | cons r0 rest ih =>
    intro i fs r c h
    cases hex : fs.pathExists (srcBase ++ splitPath r0) with
    | false =>
      rw [runFrom_skip hex] at h
      obtain ⟨hl, pre, post, hsplit, hsucc, hfs, hexi⟩ := ih (i + 1) fs r c h
      refine ⟨hl, r0 :: pre, post, by rw [hsplit, List.cons_append], ?_, ?_, ?_⟩
      · rw [runFrom_skip hex]
        exact hsucc
      · rw [runFrom_skip hex, runFrom_skip hex]
        exact hfs
      · rw [runFrom_skip hex]
        exact hexi
    | true =>
      cases hlk : alookup r0 fails with
      | some cause =>
        rw [runFrom_fail hex hlk] at h
        have h' : Outcome.failure r0 cause = Outcome.failure r c := h
        have hr0 : r0 = r ∧ cause = c := by
          constructor <;> injection h'
        obtain ⟨hr0, hc0⟩ := hr0
        subst hr0
        subst hc0
        refine ⟨hlk, [], rest, rfl, rfl, ?_, ?_⟩
        · rw [runFrom_fail hex hlk]
          rfl
        · exact hex
      | none =>
        rw [runFrom_copy hex hlk] at h
        obtain ⟨hl, pre, post, hsplit, hsucc, hfs, hexi⟩ := ih (i + 1)
          (copyPath fs (srcBase ++ splitPath r0) (dstBase ++ splitPath r0)) r c h
        refine ⟨hl, r0 :: pre, post, by rw [hsplit, List.cons_append], ?_, ?_, ?_⟩
        · rw [runFrom_copy hex hlk]
          exact hsucc
        · rw [runFrom_copy hex hlk, runFrom_copy hex hlk]
          exact hfs
        · rw [runFrom_copy hex hlk]
          exact hexi

theorem runFrom_fails_not_success (srcBase dstBase : Path)
    (fails : List (String × String)) (t : Nat)
    (hd1 : pathPre srcBase dstBase = false)
    (hd2 : pathPre dstBase srcBase = false) :
    ∀ (l : List String) (i : Nat) (fs : FS) (rel c : String),
    rel ∈ l →
    fs.pathExists (srcBase ++ splitPath rel) = true →
    alookup rel fails = some c →
    (runFrom srcBase dstBase fails t l i fs).2.2 ≠ .success := by
  intro l
  induction l with
  | nil =>
    intro i fs rel c hmem
    exact absurd hmem (by simp)
  | cons r0 rest ih =>
    intro i fs rel c hmem hexr hlkr
    cases hex : fs.pathExists (srcBase ++ splitPath r0) with
    | false =>
      rw [runFrom_skip hex]
      rcases List.mem_cons.mp hmem with he | hm
      · rw [he] at hexr
        rw [hexr] at hex
        exact absurd hex (by simp)
      · exact ih _ _ _ _ hm hexr hlkr
    | true =>
      cases hlk : alookup r0 fails with
      | some cause =>
        rw [runFrom_fail hex hlk]
        intro h
        exact absurd h (by simp)
      | none =>
        rw [runFrom_copy hex hlk]
        rcases List.mem_cons.mp hmem with he | hm
        · rw [he] at hlkr
          rw [hlkr] at hlk
          exact absurd hlk (by simp)
        · have hexr1 : (copyPath fs (srcBase ++ splitPath r0)
              (dstBase ++ splitPath r0)).pathExists (srcBase ++ splitPath rel) = true := by
            rw [(copyPath_source_preserve fs srcBase dstBase hd1 hd2
              (pathPre_app srcBase (splitPath rel)) (splitPath r0)).2.2.2]
            exact hexr
          exact ih _ _ _ _ hm hexr1 hlkr

theorem runFrom_prog_vals (srcBase dstBase : Path)
    (fails : List (String × String)) (t : Nat) :
    ∀ (l : List String) (i : Nat) (fs : FS) (v : Nat),
    v ∈ (runFrom srcBase dstBase fails t l i fs).2.1 →
    ∃ j, i ≤ j ∧ j < i + l.length ∧ v = (j + 1) * 100 / t := by
  intro l
  induction l with
  | nil =>
    intro i fs v hv
    exact absurd hv (by simp [runFrom])
  | cons r0 rest ih =>
    intro i fs v hv
    cases hex : fs.pathExists (srcBase ++ splitPath r0) with
    | false =>
      rw [runFrom_skip hex] at hv
      obtain ⟨j, hj1, hj2, hj3⟩ := ih _ _ _ hv
      exact ⟨j, by omega, by simp only [List.length_cons]; omega, hj3⟩
    | true =>
      cases hlk : alookup r0 fails with
      | some cause =>
        rw [runFrom_fail hex hlk] at hv
        exact absurd hv (by simp)
      | none =>
        rw [runFrom_copy hex hlk] at hv
        rcases List.mem_cons.mp hv with he | hm
        · exact ⟨i, le_refl i, by simp only [List.length_cons]; omega, he⟩
        · obtain ⟨j, hj1, hj2, hj3⟩ := ih _ _ _ hm
          exact ⟨j, by omega, by simp only [List.length_cons]; omega, hj3⟩

theorem runFrom_prog_lb (srcBase dstBase : Path)
    (fails : List (String × String)) (t : Nat)
    (l : List String) (i : Nat) (fs : FS) (v : Nat)
    (hv : v ∈ (runFrom srcBase dstBase fails t l i fs).2.1) :
    (i + 1) * 100 / t ≤ v := by
  obtain ⟨j, hj1, _, hj3⟩ := runFrom_prog_vals srcBase dstBase fails t l i fs v hv
  rw [hj3]
  exact Nat.div_le_div_right (Nat.mul_le_mul_right 100 (by omega))

theorem runFrom_prog_sorted (srcBase dstBase : Path)
    (fails : List (String × String)) (t : Nat) :
    ∀ (l : List String) (i : Nat) (fs : FS),
    ((runFrom srcBase dstBase fails t l i fs).2.1).Pairwise (fun a b => a ≤ b) := by
  intro l
  induction l with
  | nil => exact fun i fs => List.Pairwise.nil
  | cons r0 rest ih =>
    intro i fs
    cases hex : fs.pathExists (srcBase ++ splitPath r0) with
    | false =>
      rw [runFrom_skip hex]
      exact ih _ _
    | true =>
      cases hlk : alookup r0 fails with
      | some cause =>
        rw [runFrom_fail hex hlk]
        exact List.Pairwise.nil
      | none =>
        rw [runFrom_copy hex hlk]
        refine List.pairwise_cons.mpr ⟨?_, ih _ _⟩
        intro v hv
        have hlb := runFrom_prog_lb srcBase dstBase fails t rest (i + 1)
          (copyPath fs (srcBase ++ splitPath r0) (dstBase ++ splitPath r0)) v hv
        have hmono : (i + 1) * 100 / t ≤ (i + 1 + 1) * 100 / t :=
          Nat.div_le_div_right (Nat.mul_le_mul_right 100 (by omega))
        exact hmono.trans hlb

theorem runFrom_prog_100 (srcBase dstBase : Path)
    (fails : List (String × String)) (t : Nat) :
    ∀ (l : List String) (i : Nat) (fs : FS),
    i + l.length = t →
    100 ∈ (runFrom srcBase dstBase fails t l i fs).2.1 →
    (runFrom srcBase dstBase fails t l i fs).2.2 = .success := by
  intro l
  induction l with
  | nil =>
    intro i fs _ hv
    exact absurd hv (by simp [runFrom])
  | cons r0 rest ih =>
    intro i fs hlen hv
    cases hex : fs.pathExists (srcBase ++ splitPath r0) with
    | false =>
      rw [runFrom_skip hex] at hv ⊢
      exact ih _ _ (by simp only [List.length_cons] at hlen; omega) hv
    | true =>
      cases hlk : alookup r0 fails with
      | some cause =>
        rw [runFrom_fail hex hlk] at hv
        exact absurd hv (by simp)
      | none =>
        rw [runFrom_copy hex hlk] at hv ⊢
        rcases List.mem_cons.mp hv with he | hm
        · have ht : 0 < t := by simp only [List.length_cons] at hlen; omega
          have hle : t ≤ i + 1 := by
            have h100 : 100 ≤ (i + 1) * 100 / t := by rw [← he]
            have := (Nat.le_div_iff_mul_le ht).mp h100
            omega
          have hrest : rest = [] := by
            simp only [List.length_cons] at hlen
            have : rest.length = 0 := by omega
            exact List.eq_nil_of_length_eq_zero this
          subst hrest
          rfl
        · exact ih _ _ (by simp only [List.length_cons] at hlen; omega) hm

/-! Lemmas about the slot listing. -/

theorem insertDesc_mem {x : DirEntry × Nat} {l : List (DirEntry × Nat)}
    {y : DirEntry × Nat} : y ∈ insertDesc x l ↔ y = x ∨ y ∈ l := by
  induction l with
  | nil => simp [insertDesc]
  | cons z zs ih =>
    simp only [insertDesc]
    split
    · simp only [List.mem_cons]
    · simp only [List.mem_cons, ih]
      tauto

theorem sortDesc_mem {l : List (DirEntry × Nat)} {y : DirEntry × Nat} :
    y ∈ sortDesc l ↔ y ∈ l := by
  induction l with
  | nil => simp [sortDesc]
  | cons z zs ih =>
    simp only [sortDesc, insertDesc_mem, List.mem_cons, ih]

theorem insertDesc_pairwise {x : DirEntry × Nat} {l : List (DirEntry × Nat)}
    (h : l.Pairwise (fun a b => b.2 ≤ a.2)) :
    (insertDesc x l).Pairwise (fun a b => b.2 ≤ a.2) := by
  induction l with
  | nil => simp [insertDesc]
  | cons y ys ih =>
    obtain ⟨hy, hys⟩ := List.pairwise_cons.mp h
    simp only [insertDesc]
    split
    · rename_i hle
      refine List.pairwise_cons.mpr ⟨?_, h⟩
      intro z hz
      rcases List.mem_cons.mp hz with hz1 | hz2
      · rw [hz1]; exact hle
      · exact (hy z hz2).trans hle
    · rename_i hnle
      refine List.pairwise_cons.mpr ⟨?_, ih hys⟩
      intro z hz
      rcases insertDesc_mem.mp hz with hz1 | hz2
      · rw [hz1]; omega
      · exact hy z hz2

theorem sortDesc_pairwise (l : List (DirEntry × Nat)) :
    (sortDesc l).Pairwise (fun a b => b.2 ≤ a.2) := by
  induction l with
  | nil => exact List.Pairwise.nil
  | cons x xs ih => exact insertDesc_pairwise ih

theorem statAll_ok {l : List DirEntry} (h : ∀ e ∈ l, exOk e.statMtime = true) :
    statAll l = .ok (l.map fun e => (e, mtimeD e)) := by
  induction l with
  | nil => rfl
  | cons e es ih =>
    have he := h e (by simp)
    cases hm : e.statMtime with
    | error c => rw [hm] at he; simp [exOk] at he
    | ok m =>
      simp only [statAll, hm]
      rw [ih fun x hx => h x (List.mem_cons_of_mem _ hx)]
      simp [mtimeD, hm]

theorem pairwise_filterMap {α β : Type} (f : α → Option β)
    (R : α → α → Prop) (S : β → β → Prop)
    (hf : ∀ a b x y, R a b → f a = some x → f b = some y → S x y) :
    ∀ l : List α, l.Pairwise R → (l.filterMap f).Pairwise S := by
  intro l
  induction l with
  | nil => simp
  | cons a l ih =>
    intro h
    rw [List.filterMap_cons]
    obtain ⟨ha, hl⟩ := List.pairwise_cons.mp h
    cases hfa : f a with
    | none => exact ih hl
    | some x =>
      refine List.pairwise_cons.mpr ⟨?_, ih hl⟩
      intro y hy
      obtain ⟨b, hb, hfb⟩ := List.mem_filterMap.mp hy
      exact hf a b x y (ha b hb) hfa hfb

/-! The checkbox tree: `get_checked_paths` equals the depth-first filter of
    per-node contributions. -/

mutual
theorem gcp_eq : ∀ t : TreeItem,
    get_checked_paths t = (preorder t).filterMap checkedContribution
  | .node c r cs => by
    have h1 : get_checked_paths (.node c r cs) =
        (if c then
          match r with
          | some rr => if rr = "" then [] else [rr]
          | none => []
         else []) ++ get_checked_paths_list cs := by
      rw [get_checked_paths.eq_def]
    have h2 : preorder (.node c r cs) = .node c r cs :: preorderList cs := by
      rw [preorder.eq_def]
    rw [h1, h2, List.filterMap_cons, gcp_list_eq cs]
    cases c with
    | false => simp [checkedContribution, TreeItem.checked]
    | true =>
      cases r with
      | none => simp [checkedContribution, TreeItem.checked, TreeItem.rel]
      | some rr =>
        by_cases hrr : rr = ""
        · simp [checkedContribution, TreeItem.checked, TreeItem.rel, hrr]
        · simp [checkedContribution, TreeItem.checked, TreeItem.rel, hrr]

theorem gcp_list_eq : ∀ ts : TreeList,
    get_checked_paths_list ts = (preorderList ts).filterMap checkedContribution
  | .nil => rfl
  | .cons t ts => by
    have h1 : get_checked_paths_list (.cons t ts) =
        get_checked_paths t ++ get_checked_paths_list ts := by
      rw [get_checked_paths_list.eq_def]
    have h2 : preorderList (.cons t ts) = preorder t ++ preorderList ts := by
      rw [preorderList.eq_def]
    rw [h1, h2, List.filterMap_append, gcp_eq t, gcp_list_eq ts]
end

/-! Claim theorems. -/

/-- C4: `setMode(slot, mode)` followed by `getMode(slot)` returns that same
    mode (for a write that succeeds, the only behaviour `save_metadata`
    produces a file from); and `getMode` on a slot with no metadata file, or
    whose metadata file cannot be read or parsed, returns "Unknown" rather than
    propagating an error.  Slots are independent: each slot directory has its
    own `metadata.json`, modelled by one `MetaFile` state per slot. -/
theorem mode_roundtrip_C4 :
    (∀ (prev : MetaFile) (mode : String),
      get_save_mode (save_metadata prev mode true) = mode) ∧
    get_save_mode .absent = "Unknown" ∧
    (∀ c, get_save_mode (.unreadable c) = "Unknown") ∧
    get_save_mode .notObject = "Unknown" := by
  refine ⟨fun prev mode => ?_, rfl, fun c => rfl, rfl⟩
  simp [save_metadata, get_save_mode, alookup]

/-- C10: for a slot whose metadata file exists and parses as a JSON object but
    contains no "mode" key, `get_save_mode` returns "Unknown" (the
    `data.get("mode", "Unknown")` default), not an error or a missing value. -/
theorem mode_missing_key_C10 (fields : List (String × String))
    (h : alookup "mode" fields = none) :
    get_save_mode (.object fields) = "Unknown" := by
  simp [get_save_mode, h]

/-- Witness for C10 at a concrete metadata object with no "mode" key. -/
theorem mode_missing_key_C10_witness :
    get_save_mode (.object [("created", "2025-01-01")]) = "Unknown" :=
  mode_missing_key_C10 [("created", "2025-01-01")] (by decide)

/-- C5: creating a slot whose directory already exists is rejected with
    AlreadyExists, before any I/O, leaving the filesystem exactly as it was
    (so the existing slot's contents are unmodified); when no such directory
    exists the call creates an empty directory for the slot, changes no file,
    and a second creation with the same name then fails with AlreadyExists. -/
theorem create_slot_C5 (fs : FS) (savedDir : Path) (name : String) :
    (fs.pathExists (savedDir ++ [name]) = true →
      create_slot fs savedDir name = (fs, .alreadyExists)) ∧
    (fs.pathExists (savedDir ++ [name]) = false →
      (create_slot fs savedDir name).2 = .created ∧
      (create_slot fs savedDir name).1.isDir (savedDir ++ [name]) = true ∧
      (∀ p, (create_slot fs savedDir name).1.readFile p = fs.readFile p) ∧
      (∀ p, pathPre (savedDir ++ [name]) p = true →
        (create_slot fs savedDir name).1.isFile p = false) ∧
      create_slot (create_slot fs savedDir name).1 savedDir name =
        ((create_slot fs savedDir name).1, .alreadyExists)) := by
  constructor
  · intro h
    unfold create_slot
    rw [if_pos h]
  · intro h
    have hcs : create_slot fs savedDir name =
        ({ fs with dirs := (savedDir ++ [name]) :: fs.dirs }, .created) := by
      unfold create_slot
      rw [if_neg (by simp [h])]
    rw [hcs]
    refine ⟨rfl, ?_, fun p => rfl, ?_, ?_⟩
    · simp [FS.isDir, pathPre_refl]
    · intro p hp
      by_cases hps : p = savedDir ++ [name]
      · subst hps
        cases hb : fs.isFile (savedDir ++ [name]) with
        | false => exact hb
        | true =>
          have hx : fs.pathExists (savedDir ++ [name]) = true := by
            simp [FS.pathExists, hb]
          rw [hx] at h
          exact absurd h (by simp)
      · cases hb : fs.isFile p with
        | false => exact hb
        | true =>
          exfalso
          have hd := isDir_of_file_under hb hp hps
          have hx : fs.pathExists (savedDir ++ [name]) = true := by
            simp [FS.pathExists, hd]
          rw [hx] at h
          exact absurd h (by simp)
    · have hex2 : ({ fs with dirs := (savedDir ++ [name]) :: fs.dirs } : FS).pathExists
          (savedDir ++ [name]) = true := by
        simp [FS.pathExists, FS.isDir, pathPre_refl]
      unfold create_slot
      rw [if_pos hex2]

/-- Witness for C5: creating "x" in an empty slots root succeeds and creating
    it again fails with AlreadyExists; creating "slot1" over an existing slot
    directory fails with AlreadyExists and returns the filesystem unchanged. -/
theorem create_slot_C5_witness :
    ((create_slot (FS.mk [] []) ["app", "saved"] "x").2 = .created ∧
      (create_slot (FS.mk [] []) ["app", "saved"] "x").1.isDir
        (["app", "saved"] ++ ["x"]) = true ∧
      create_slot (create_slot (FS.mk [] []) ["app", "saved"] "x").1
          ["app", "saved"] "x" =
        ((create_slot (FS.mk [] []) ["app", "saved"] "x").1, .alreadyExists)) ∧
    create_slot fsMerge ["app", "saved"] "slot1" = (fsMerge, .alreadyExists) :=
  ⟨⟨((create_slot_C5 (FS.mk [] []) ["app", "saved"] "x").2 (by decide)).1,
    ((create_slot_C5 (FS.mk [] []) ["app", "saved"] "x").2 (by decide)).2.1,
    ((create_slot_C5 (FS.mk [] []) ["app", "saved"] "x").2 (by decide)).2.2.2.2⟩,
   (create_slot_C5 fsMerge ["app", "saved"] "slot1").1 (by decide)⟩

/-- C6: `get_checked_paths` is the depth-first (preorder) traversal filtered by
    each node's own check state, independent of its ancestors: a checked child
    under an unchecked parent contributes exactly the child's relative path,
    and a checked parent with an unchecked child contributes exactly the
    parent's. -/
theorem checked_paths_C6 :
    (∀ t : TreeItem,
      get_checked_paths t = (preorder t).filterMap checkedContribution) ∧
    get_checked_paths treeChildOnly = ["p/c"] ∧
    get_checked_paths treeParentOnly = ["p/"] :=
  ⟨gcp_eq, by decide, by decide⟩

/-- Helper: what a successful row of `refresh_saves` says about its entry. -/
theorem rowOf_spec {em : DirEntry × Nat} {row : SlotRow}
    (h : rowOf em = some row) :
    row.mtime = em.2 ∧ row.name = em.1.name ∧ em.1.isDir = true ∧
      em.1.sizeSum = .ok row.sizeBytes ∧ row.mode = get_save_mode em.1.meta := by
  unfold rowOf at h
  split at h
  · rename_i hdir
    cases hsz : em.1.sizeSum with
    | ok sz =>
      rw [hsz] at h
      injection h with h'
      subst h'
      exact ⟨rfl, rfl, hdir, rfl, rfl⟩
    | error c =>
      rw [hsz] at h
      exact absurd h (by simp)
  · exact absurd h (by simp)

/-- Helper: a directory entry with a successful size computation produces a
    row. -/
theorem rowOf_of_dir {em : DirEntry × Nat} {sz : Nat}
    (hdir : em.1.isDir = true) (hsz : em.1.sizeSum = .ok sz) :
    rowOf em = some ⟨em.1.name, em.2, sz, get_save_mode em.1.meta⟩ := by
  unfold rowOf
  rw [if_pos hdir, hsz]

/-- C7 (amended): when every entry of the slots root can be stat'ed, the
    listing succeeds, is sorted by last-modified time descending, every row
    comes from a subdirectory whose size computation succeeded (so non-
    directory entries are never listed, and an error summing one slot's sizes
    skips only that slot), and every subdirectory whose size computation
    succeeds is listed — in particular a slot with unreadable metadata is
    still listed, with mode "Unknown". -/
theorem refresh_saves_C7 (entries : List DirEntry)
    (h : ∀ e ∈ entries, exOk e.statMtime = true) :
    ∃ rows, refresh_saves entries = .ok rows ∧
      rows.Pairwise (fun a b => b.mtime ≤ a.mtime) ∧
      (∀ r ∈ rows, ∃ e ∈ entries, e.isDir = true ∧ r.name = e.name ∧
        e.statMtime = .ok r.mtime ∧ e.sizeSum = .ok r.sizeBytes ∧
        r.mode = get_save_mode e.meta) ∧
      (∀ e ∈ entries, e.isDir = true → ∀ sz, e.sizeSum = .ok sz →
        ∃ r ∈ rows, r.name = e.name) := by
  have hs := statAll_ok h
  refine ⟨(sortDesc (entries.map fun e => (e, mtimeD e))).filterMap rowOf,
    ?_, ?_, ?_, ?_⟩
  · unfold refresh_saves
    rw [hs]
  · refine pairwise_filterMap rowOf (fun a b => b.2 ≤ a.2) _ ?_ _
      (sortDesc_pairwise _)
    intro a b x y hab hfa hfb
    rw [(rowOf_spec hfa).1, (rowOf_spec hfb).1]
    exact hab
  · intro r hr
    obtain ⟨em, hmem, hfm⟩ := List.mem_filterMap.mp hr
    obtain ⟨e, he, heq⟩ := List.mem_map.mp (sortDesc_mem.mp hmem)
    obtain ⟨h1, h2, h3, h4, h5⟩ := rowOf_spec hfm
    rw [← heq] at h1 h2 h3 h4 h5
    refine ⟨e, he, h3, h2, ?_, h4, h5⟩
    have hex := h e he
    cases hm : e.statMtime with
    | error c =>
      rw [hm] at hex
      simp [exOk] at hex
    | ok m =>
      have hmd : mtimeD e = m := by simp [mtimeD, hm]
      rw [h1]
      exact congrArg Except.ok hmd.symm
  · intro e he hdir sz hsz
    have hmem : (e, mtimeD e) ∈ sortDesc (entries.map fun e => (e, mtimeD e)) :=
      sortDesc_mem.mpr (List.mem_map.mpr ⟨e, he, rfl⟩)
    have hrow : rowOf (e, mtimeD e) =
        some ⟨e.name, mtimeD e, sz, get_save_mode e.meta⟩ :=
      rowOf_of_dir hdir hsz
    exact ⟨_, List.mem_filterMap.mpr ⟨(e, mtimeD e), hmem, hrow⟩, rfl⟩

/-- Witness for the amended C7 on a concrete slots root: a slot with a failing
    size computation, a healthy slot, and a stray non-directory entry. -/
theorem refresh_saves_C7_witness :
    (∀ e ∈ [entryBadSize, entryGood, entryFile], exOk e.statMtime = true) ∧
    (∃ rows, refresh_saves [entryBadSize, entryGood, entryFile] = .ok rows ∧
      rows.Pairwise (fun a b => b.mtime ≤ a.mtime) ∧
      (∀ r ∈ rows, ∃ e ∈ [entryBadSize, entryGood, entryFile], e.isDir = true ∧
        r.name = e.name ∧ e.statMtime = .ok r.mtime ∧
        e.sizeSum = .ok r.sizeBytes ∧ r.mode = get_save_mode e.meta) ∧
      (∀ e ∈ [entryBadSize, entryGood, entryFile], e.isDir = true →
        ∀ sz, e.sizeSum = .ok sz → ∃ r ∈ rows, r.name = e.name)) :=
  ⟨by decide, refresh_saves_C7 [entryBadSize, entryGood, entryFile] (by decide)⟩

/-- Counterexample to C7 as stated: a slot whose `metadata.json` is unreadable
    is not skipped — it is listed with mode "Unknown" (the bare `except` in
    `get_save_mode` swallows the error before the listing ever sees it); and a
    stat failure on a single entry aborts the whole listing, because the sort
    key `p.stat().st_mtime` is evaluated on every entry before the per-slot
    `try` block. -/
theorem refresh_saves_C7_counterexample :
    refresh_saves [entryBadMeta] = .ok [⟨"slotA", 10, 0, "Unknown"⟩] ∧
    refresh_saves [entryGood, entryBadStat] =
      .error "stat: Permission denied" :=
  ⟨rfl, rfl⟩

/-- C1: for a sync call over disjoint roots that completes successfully, every
    relative path whose resolved source is a directory is merge-copied: each
    destination file also present in the source subtree ends up with the source
    content, and each destination file absent from the source subtree keeps its
    original content (a merge, not a mirror). -/
theorem sync_dir_merge_C1 (srcBase dstBase : Path) (paths : List String)
    (fails : List (String × String)) (fs : FS) (rel : String)
    (hd1 : pathPre srcBase dstBase = false)
    (hd2 : pathPre dstBase srcBase = false)
    (hsucc : (sync srcBase dstBase paths fails fs).2.2 = .success)
    (hrel : rel ∈ paths)
    (hdir : fs.isDir (srcBase ++ splitPath rel) = true) :
    (∀ s : Path, s ≠ [] →
      fs.isFile (srcBase ++ (splitPath rel ++ s)) = true →
      (sync srcBase dstBase paths fails fs).1.readFile
          (dstBase ++ (splitPath rel ++ s)) =
        fs.readFile (srcBase ++ (splitPath rel ++ s))) ∧
    (∀ s : Path, fs.isFile (srcBase ++ (splitPath rel ++ s)) = false →
      (sync srcBase dstBase paths fails fs).1.readFile
          (dstBase ++ (splitPath rel ++ s)) =
        fs.readFile (dstBase ++ (splitPath rel ++ s))) := by
  constructor
  · intro s hs hf
    exact runFrom_coverage srcBase dstBase fails paths.length hd1 hd2 paths 0
      fs rel s hsucc hrel hdir hs hf
  · intro s hnf
    rcases runFrom_values srcBase dstBase fails paths.length hd1 hd2 paths 0
        fs (splitPath rel ++ s) with h | ⟨_, hf⟩
    · exact h
    · rw [hnf] at hf
      exact absurd hf (by simp)

/-- Witness for C1: syncing `db/` overwrites the stale destination `db/a.txt`
    with the source content and leaves the extraneous destination
    `db/extra.txt` untouched. -/
theorem sync_dir_merge_C1_witness :
    ((sync src0 dst0 ["db/"] [] fsMerge).1.readFile
        (dst0 ++ (splitPath "db/" ++ ["a.txt"])) =
      fsMerge.readFile (src0 ++ (splitPath "db/" ++ ["a.txt"]))) ∧
    ((sync src0 dst0 ["db/"] [] fsMerge).1.readFile
        (dst0 ++ (splitPath "db/" ++ ["extra.txt"])) =
      fsMerge.readFile (dst0 ++ (splitPath "db/" ++ ["extra.txt"]))) :=
  ⟨(sync_dir_merge_C1 src0 dst0 ["db/"] [] fsMerge "db/" (by decide) (by decide)
      (by decide) (by decide) (by decide)).1 ["a.txt"] (by decide) (by decide),
   (sync_dir_merge_C1 src0 dst0 ["db/"] [] fsMerge "db/" (by decide) (by decide)
      (by decide) (by decide) (by decide)).2 ["extra.txt"] (by decide)⟩

/-- C2: a sync that ends in failure reports a relative path of the list whose
    copy raised the recorded cause, stopped right there (the final filesystem
    is exactly the state after the successfully processed prefix, so paths
    after the failing one are untouched and already-copied paths are not
    rolled back); and conversely, over disjoint roots, a listed path that
    exists at the source and whose copy raises prevents a success outcome. -/
theorem sync_abort_C2 (srcBase dstBase : Path) (paths : List String)
    (fails : List (String × String)) (fs : FS)
    (hd1 : pathPre srcBase dstBase = false)
    (hd2 : pathPre dstBase srcBase = false) :
    (∀ r c, (sync srcBase dstBase paths fails fs).2.2 = .failure r c →
      alookup r fails = some c ∧
      ∃ pre post, paths = pre ++ r :: post ∧
        (sync srcBase dstBase pre fails fs).2.2 = .success ∧
        (sync srcBase dstBase paths fails fs).1 =
          (sync srcBase dstBase pre fails fs).1 ∧
        (sync srcBase dstBase pre fails fs).1.pathExists
          (srcBase ++ splitPath r) = true) ∧
    (∀ rel c, rel ∈ paths →
      fs.pathExists (srcBase ++ splitPath rel) = true →
      alookup rel fails = some c →
      (sync srcBase dstBase paths fails fs).2.2 ≠ .success) := by
  constructor
  · intro r c hfail
    obtain ⟨hl, pre, post, hsplit, hsucc, hfs, hexi⟩ :=
      runFrom_failure_split srcBase dstBase fails paths.length paths 0 fs r c hfail
    obtain ⟨e1, e2⟩ :=
      runFrom_indep srcBase dstBase fails paths.length pre.length pre 0 0 fs
    refine ⟨hl, pre, post, hsplit, e2.symm.trans hsucc, hfs.trans e1, ?_⟩
    rw [show (sync srcBase dstBase pre fails fs).1 =
      (runFrom srcBase dstBase fails pre.length pre 0 fs).1 from rfl, ← e1]
    exact hexi
  · intro rel c hmem hex hlk
    exact runFrom_fails_not_success srcBase dstBase fails paths.length hd1 hd2
      paths 0 fs rel c hmem hex hlk

/-- Witness for C2: `log.txt` is copied, then the copy of `db/` raises
    "disk full" and the run ends in that failure; the failure outcome also
    rules out success. -/
theorem sync_abort_C2_witness :
    (alookup "db/" [("db/", "disk full")] = some "disk full" ∧
      ∃ pre post, ["log.txt", "db/"] = pre ++ "db/" :: post ∧
        (sync src0 dst0 pre [("db/", "disk full")] fs8).2.2 = .success ∧
        (sync src0 dst0 ["log.txt", "db/"] [("db/", "disk full")] fs8).1 =
          (sync src0 dst0 pre [("db/", "disk full")] fs8).1 ∧
        (sync src0 dst0 pre [("db/", "disk full")] fs8).1.pathExists
          (src0 ++ splitPath "db/") = true) ∧
    (sync src0 dst0 ["log.txt", "db/"] [("db/", "disk full")] fs8).2.2 ≠
      .success :=
  ⟨(sync_abort_C2 src0 dst0 ["log.txt", "db/"] [("db/", "disk full")] fs8
      (by decide) (by decide)).1 "db/" "disk full" (by decide),
   (sync_abort_C2 src0 dst0 ["log.txt", "db/"] [("db/", "disk full")] fs8
      (by decide) (by decide)).2 "db/" "disk full" (by decide) (by decide)
      (by decide)⟩

/-- C3: over disjoint roots, a listed relative path that does not exist at the
    source is skipped without error: everything at or below its destination is
    left untouched, the run still succeeds when no path's copy raises, and the
    outcome never blames the skipped path. -/
theorem sync_skip_C3 (srcBase dstBase : Path) (paths : List String)
    (fails : List (String × String)) (fs : FS) (rel : String)
    (hd1 : pathPre srcBase dstBase = false)
    (hd2 : pathPre dstBase srcBase = false)
    (_hrel : rel ∈ paths)
    (hmiss : fs.pathExists (srcBase ++ splitPath rel) = false) :
    (∀ p, pathPre (dstBase ++ splitPath rel) p = true →
      (sync srcBase dstBase paths fails fs).1.readFile p = fs.readFile p ∧
      (sync srcBase dstBase paths fails fs).1.isDir p = fs.isDir p) ∧
    ((∀ r ∈ paths, alookup r fails = none) →
      (sync srcBase dstBase paths fails fs).2.2 = .success) ∧
    (∀ c, (sync srcBase dstBase paths fails fs).2.2 ≠ .failure rel c) := by
  refine ⟨?_, ?_, ?_⟩
  · intro p hp
    exact runFrom_untouched srcBase dstBase fails paths.length hd1 hd2 paths 0
      fs (splitPath rel) hmiss p hp
  · intro hall
    exact runFrom_success srcBase dstBase fails paths.length paths 0 fs hall
  · exact runFrom_no_fail_missing srcBase dstBase fails paths.length hd1 hd2
      paths 0 fs rel hmiss

/-- Witness for C3: `missing.txt` does not exist at the source; the sync still
    succeeds, its destination stays untouched, and no failure blames it. -/
theorem sync_skip_C3_witness :
    ((sync src0 dst0 ["missing.txt", "log.txt"] [] fs8).1.readFile
        (dst0 ++ splitPath "missing.txt") =
      fs8.readFile (dst0 ++ splitPath "missing.txt") ∧
      (sync src0 dst0 ["missing.txt", "log.txt"] [] fs8).1.isDir
          (dst0 ++ splitPath "missing.txt") =
        fs8.isDir (dst0 ++ splitPath "missing.txt")) ∧
    (sync src0 dst0 ["missing.txt", "log.txt"] [] fs8).2.2 = .success ∧
    (sync src0 dst0 ["missing.txt", "log.txt"] [] fs8).2.2 ≠
      .failure "missing.txt" "ghost" :=
  ⟨(sync_skip_C3 src0 dst0 ["missing.txt", "log.txt"] [] fs8 "missing.txt"
      (by decide) (by decide) (by decide) (by decide)).1 _ (pathPre_refl _),
   (sync_skip_C3 src0 dst0 ["missing.txt", "log.txt"] [] fs8 "missing.txt"
      (by decide) (by decide) (by decide) (by decide)).2.1 (by decide),
   (sync_skip_C3 src0 dst0 ["missing.txt", "log.txt"] [] fs8 "missing.txt"
      (by decide) (by decide) (by decide) (by decide)).2.2 "ghost"⟩

/-- C8: every reported progress value is the percentage of paths processed
    (`(i + 1) * 100 / total` for some index `i`, never a byte count), the
    sequence is monotonically non-decreasing, 100 is reported only on a fully
    successful run, and on the section-8 scenario (allowlist
    `["db/", "log.txt"]`, both sources present, empty destination) the
    reported progress is `[50, 100]`, both files arrive byte-identical, and
    the run succeeds. -/
theorem sync_progress_C8 (srcBase dstBase : Path) (paths : List String)
    (fails : List (String × String)) (fs : FS) :
    (∀ v ∈ (sync srcBase dstBase paths fails fs).2.1,
      ∃ j, j < paths.length ∧ v = (j + 1) * 100 / paths.length) ∧
    ((sync srcBase dstBase paths fails fs).2.1).Pairwise (fun a b => a ≤ b) ∧
    (100 ∈ (sync srcBase dstBase paths fails fs).2.1 →
      (sync srcBase dstBase paths fails fs).2.2 = .success) ∧
    (sync src0 dst0 ["db/", "log.txt"] [] fs8).2.1 = [50, 100] ∧
    (sync src0 dst0 ["db/", "log.txt"] [] fs8).1.readFile
      (dst0 ++ ["db", "a.txt"]) = some "abcde" ∧
    (sync src0 dst0 ["db/", "log.txt"] [] fs8).1.readFile
      (dst0 ++ ["log.txt"]) = some "abc" ∧
    (sync src0 dst0 ["db/", "log.txt"] [] fs8).2.2 = .success := by
  refine ⟨?_, runFrom_prog_sorted srcBase dstBase fails paths.length paths 0 fs,
    ?_, by decide, by decide, by decide, by decide⟩
  · intro v hv
    obtain ⟨j, _, hj2, hj3⟩ :=
      runFrom_prog_vals srcBase dstBase fails paths.length paths 0 fs v hv
    exact ⟨j, by omega, hj3⟩
  · intro hv
    exact runFrom_prog_100 srcBase dstBase fails paths.length paths 0 fs
      (Nat.zero_add _) hv

/-- Witness for C8: on the section-8 scenario the reported 100 is a
    percentage-of-paths value, and the run that reported it succeeded. -/
theorem sync_progress_C8_witness :
    (∃ j, j < (["db/", "log.txt"] : List String).length ∧
      100 = (j + 1) * 100 / (["db/", "log.txt"] : List String).length) ∧
    (sync src0 dst0 ["db/", "log.txt"] [] fs8).2.2 = .success :=
  ⟨(sync_progress_C8 src0 dst0 ["db/", "log.txt"] [] fs8).1 100 (by decide),
   (sync_progress_C8 src0 dst0 ["db/", "log.txt"] [] fs8).2.2.1 (by decide)⟩

/-- C9 (implicit frame property): over disjoint roots, a sync call never
    modifies anything at or below the source root, and never creates,
    modifies or deletes any file or directory that is neither at or below one
    of the resolved destinations nor an ancestor of one (ancestors may gain
    directory markers from `mkdir(parents=True)`); the theorem quantifies over
    an arbitrary failure oracle, so it covers successful, skipping and aborted
    runs alike. -/
theorem sync_frame_C9 (srcBase dstBase : Path) (paths : List String)
    (fails : List (String × String)) (fs : FS)
    (hd1 : pathPre srcBase dstBase = false)
    (hd2 : pathPre dstBase srcBase = false) :
    (∀ p, pathPre srcBase p = true →
      (sync srcBase dstBase paths fails fs).1.readFile p = fs.readFile p ∧
      (sync srcBase dstBase paths fails fs).1.isDir p = fs.isDir p) ∧
    (∀ p, (∀ rel ∈ paths, pathPre (dstBase ++ splitPath rel) p = false ∧
        pathPre p (dstBase ++ splitPath rel) = false) →
      (sync srcBase dstBase paths fails fs).1.readFile p = fs.readFile p ∧
      (sync srcBase dstBase paths fails fs).1.isDir p = fs.isDir p) := by
  constructor
  · intro p hp
    have h := runFrom_source srcBase dstBase fails paths.length hd1 hd2
      paths 0 fs p hp
    exact ⟨h.1, h.2.1⟩
  · intro p hall
    exact runFrom_frame srcBase dstBase fails paths.length paths 0 fs p hall

/-- Witness for C9: after the section-8 sync, the source file `db/a.txt` and
    an unrelated destination-side path are untouched. -/
theorem sync_frame_C9_witness :
    ((sync src0 dst0 ["db/", "log.txt"] [] fs8).1.readFile
        ["game", "Saved", "db", "a.txt"] =
      fs8.readFile ["game", "Saved", "db", "a.txt"] ∧
      (sync src0 dst0 ["db/", "log.txt"] [] fs8).1.isDir
          ["game", "Saved", "db", "a.txt"] =
        fs8.isDir ["game", "Saved", "db", "a.txt"]) ∧
    ((sync src0 dst0 ["db/", "log.txt"] [] fs8).1.readFile
        ["app", "other.txt"] =
      fs8.readFile ["app", "other.txt"] ∧
      (sync src0 dst0 ["db/", "log.txt"] [] fs8).1.isDir
          ["app", "other.txt"] =
        fs8.isDir ["app", "other.txt"]) :=
  ⟨(sync_frame_C9 src0 dst0 ["db/", "log.txt"] [] fs8 (by decide) (by decide)).1
      ["game", "Saved", "db", "a.txt"] (by decide),
   (sync_frame_C9 src0 dst0 ["db/", "log.txt"] [] fs8 (by decide) (by decide)).2
      ["app", "other.txt"] (by decide)⟩

end SaveManager
